import Mathlib

/-!
Verification of the selection/traversal core of the `file_tree_builder_tui`
repository (`src/app.py`), as a shallow embedding in Lean 4.

Modelling conventions:
* A filesystem path under the configured root `ROOT` is represented by its
  root-relative parts, a `List String` (the root itself is `[]`).  The
  absolute parts of a path, as produced by `pathlib.Path.parts`, are
  `cfg.rootParts ++ parts` where `cfg.rootParts` models `ROOT.parts`.
* Byte strings are `List Nat` (each entry one byte).
* The global configuration read from the environment at startup
  (`EXCLUDES`, `INCLUDE_HIDDEN`, `MAX_BYTES`, `READ_BINARY`, `ROOT`) is a
  `Config` value threaded through every definition.
* `fnmatch.fnmatchcase` is modelled by an executable glob matcher
  (`*`, `?`, `[...]` classes with `!` negation and ranges, an unterminated
  `[` taken literally), driven by a fuel argument so that it is structurally
  recursive and kernel-evaluable; the fuel `pat.length + name.length + 1`
  dominates the recursion depth, in which every step shortens the pattern
  or the string.
-/

/-- Global configuration of the application: the `EXCLUDES` pattern list
(after defaults, environment override and `.filetreeignore` extension),
the `INCLUDE_HIDDEN` flag, `MAX_BYTES`, `READ_BINARY`, and the resolved
root directory (its final name and its absolute parts). -/
structure Config where
  excludes : List String
  includeHidden : Bool
  maxBytes : Nat
  readBinary : Bool
  rootName : String
  rootParts : List String

/-- Character-class body matcher for glob `[...]` patterns: items are
either literal characters or `a-b` ranges (a dash that is first or last is
literal, mirroring `fnmatch.translate`). -/
def classMatch : List Char → Char → Bool
  | [], _ => false
  | a :: '-' :: b :: rest, c => (decide (a ≤ c) && decide (c ≤ b)) || classMatch rest c
  | a :: rest, c => (a == c) || classMatch rest c

/-- Scan for the closing `]` of a character class; returns the class body
and the remainder of the pattern, or `none` if the class is unterminated. -/
def findClose : List Char → Option (List Char × List Char)
  | [] => none
  | c :: rest =>
    if c = ']' then some ([], rest)
    else (findClose rest).map (fun p => (c :: p.1, p.2))

/-- Parse a glob character class directly after its opening `[`:
an optional leading `!` negates, a `]` in first position is a literal
member, and the scan for the closing `]` starts after those, exactly as in
`fnmatch.translate`. -/
def bracketSplit (ps : List Char) : Option (Bool × List Char × List Char) :=
  let h : Bool × List Char := match ps with
    | '!' :: t => (true, t)
    | _ => (false, ps)
  match h.2 with
  | ']' :: t => (findClose t).map (fun p => (h.1, ']' :: p.1, p.2))
  | other => (findClose other).map (fun p => (h.1, p.1, p.2))

/-- Fuel-driven glob matcher underlying `fnmatchcase`.  Each step consumes
fuel; with fuel at least `pat.length + s.length + 1` the fuel never runs
out, since every recursive call shortens the pattern or the string. -/
def globMatchF : Nat → List Char → List Char → Bool
  | 0, _, _ => false
  | fuel + 1, pat, s =>
    match pat, s with
    | [], s2 => s2.isEmpty
    | '*' :: ps, s2 =>
      globMatchF fuel ps s2 ||
        (match s2 with
         | [] => false
         | _ :: s3 => globMatchF fuel ('*' :: ps) s3)
    | '?' :: ps, s2 =>
      (match s2 with
       | [] => false
       | _ :: s3 => globMatchF fuel ps s3)
    | '[' :: ps, s2 =>
      (match bracketSplit ps with
       | some (neg, stuff, rest) =>
         (match s2 with
          | [] => false
          | c :: s3 => (xor (classMatch stuff c) neg) && globMatchF fuel rest s3)
       | none =>
         (match s2 with
          | c :: s3 => (c == '[') && globMatchF fuel ps s3
          | [] => false))
    | c :: ps, s2 =>
      (match s2 with
       | d :: s3 => (c == d) && globMatchF fuel ps s3
       | [] => false)

/-- `fnmatch.fnmatchcase(name, pat)`: case-sensitive glob match of the
whole name against the pattern. -/
def fnmatchcase (name pat : String) : Bool :=
  globMatchF (pat.data.length + name.data.length + 1) pat.data name.data

/-- Slash-separated join of path segments. -/
def joinSlash : List String → String
  | [] => ""
  | [a] => a
  | a :: rest => a ++ "/" ++ joinSlash rest

/-- Rendering of a root-relative prefix as in
`str(Path(*parts)).replace("\\", "/")`: the empty prefix renders as `"."`,
a non-empty one as its slash-separated join. -/
def renderRel (parts : List String) : String :=
  match parts with
  | [] => "."
  | _ => joinSlash parts

/-- `path_matches_excludes(path)` from `src/app.py`: for every prefix
length `i` from `0` to the number of root-relative parts, test the last
segment of the prefix (when there is one) and the rendered prefix
(when non-empty) against every configured pattern; any match excludes. -/
def path_matches_excludes (cfg : Config) (parts : List String) : Bool :=
  (List.range (parts.length + 1)).any fun i =>
    let pre := parts.take i
    let segCands : List String := match pre.getLast? with
      | some s => [s]
      | none => []
    let rel_posix := renderRel pre
    let candidates := segCands ++ (if rel_posix = "" then [] else [rel_posix])
    cfg.excludes.any fun pat => candidates.any fun c => (c != "") && fnmatchcase c pat

/-- `part.startswith(".")`: the first character of the string is a dot. -/
def startsWithDot (s : String) : Bool :=
  match s.data with
  | c :: _ => c == '.'
  | [] => false

/-- `is_hidden(path)` from `src/app.py`: some component of the absolute
path (other than a bare `"."`) starts with a dot. -/
def is_hidden (cfg : Config) (parts : List String) : Bool :=
  (cfg.rootParts ++ parts).any fun part => (part != ".") && startsWithDot part

/-- `FileTreeApp.should_skip` from `src/app.py`: skip hidden entries when
hidden inclusion is disabled, and skip non-root entries matching an
exclude pattern. -/
def should_skip (cfg : Config) (parts : List String) : Bool :=
  if !cfg.includeHidden && is_hidden cfg parts then true
  else if !parts.isEmpty && path_matches_excludes cfg parts then true
  else false

/-- The prefixes of a root-relative path, shortest first: the root (empty
prefix), every proper ancestor, and the path itself. -/
def ancestorsOrSelf (parts : List String) : List (List String) :=
  (List.range (parts.length + 1)).map (fun i => parts.take i)

/-- The exclusion condition as the specification words it: the path or
some ancestor of it matches a configured pattern, either as its last path
segment or as its rendered root-relative subpath (the root's rendered
subpath being `"."`). -/
def specExcludedByPattern (cfg : Config) (parts : List String) : Bool :=
  (ancestorsOrSelf parts).any fun a =>
    cfg.excludes.any fun pat =>
      (match a.getLast? with
       | some s => fnmatchcase s pat
       | none => false) || fnmatchcase (renderRel a) pat

/-- `shouldSkip` as the specification words it: hidden while hidden
inclusion is disabled, or a non-root path whose ancestors-or-self match an
exclude pattern. -/
def spec_should_skip (cfg : Config) (parts : List String) : Bool :=
  (!cfg.includeHidden &&
      (cfg.rootParts ++ parts).any (fun part => (part != ".") && startsWithDot part)) ||
  (!parts.isEmpty && specExcludedByPattern cfg parts)

/-! ### Helper lemmas for the exclusion matcher -/

theorem listAnyCongr {α : Type} {l : List α} {f g : α → Bool}
    (h : ∀ a ∈ l, f a = g a) : l.any f = l.any g := by
  induction l with
  | nil => rfl
  | cons a t ih =>
    simp only [List.any_cons, h a (List.mem_cons_self a t),
      ih (fun b hb => h b (List.mem_cons_of_mem a hb))]

theorem listAnyMap {α β : Type} (f : α → β) (p : β → Bool) (l : List α) :
    (l.map f).any p = l.any (fun a => p (f a)) := by
  induction l with
  | nil => rfl
  | cons a t ih => simp [List.any_cons, ih]

theorem stringAppendNeEmpty {a b : String} (h : a ≠ "") : a ++ b ≠ "" := by
  intro hc
  apply h
  apply String.ext
  have := congrArg String.data hc
  simp only [String.data_append] at this
  rcases List.append_eq_nil.mp this with ⟨h1, _⟩
  simpa using h1

theorem joinSlashNeEmpty {l : List String} (hne : l ≠ [])
    (hv : ∀ s ∈ l, s ≠ "") : joinSlash l ≠ "" := by
  match l with
  | [] => exact absurd rfl hne
  | [a] =>
    simpa [joinSlash] using hv a (by simp)
  | a :: b :: t =>
    show a ++ "/" ++ joinSlash (b :: t) ≠ ""
    exact stringAppendNeEmpty (stringAppendNeEmpty (hv a (by simp)))

theorem renderRelNeEmpty {l : List String} (hv : ∀ s ∈ l, s ≠ "") :
    renderRel l ≠ "" := by
  match l with
  | [] => simp [renderRel]
  | a :: t => exact joinSlashNeEmpty (by simp) hv

/-- The loop body of `path_matches_excludes` agrees with the ancestor-wise
existential reading of the specification, provided no path segment is the
empty string (real filesystem segments never are). -/
theorem pathMatchesExcludesEqSpec (cfg : Config) (parts : List String)
    (hv : ∀ s ∈ parts, s ≠ "") :
    path_matches_excludes cfg parts = specExcludedByPattern cfg parts := by
  unfold path_matches_excludes specExcludedByPattern ancestorsOrSelf
  rw [listAnyMap]
  apply listAnyCongr
  intro i _
  apply listAnyCongr
  intro pat _
  cases hl : (parts.take i).getLast? with
  | none =>
    have hpre : parts.take i = [] := by
      cases hp : parts.take i with
      | nil => rfl
      | cons a t => rw [hp] at hl; simp [List.getLast?] at hl
    simp [hpre, renderRel]
  | some s =>
    have hpre : parts.take i ≠ [] := by
      intro hc; rw [hc] at hl; simp at hl
    have hrne : renderRel (parts.take i) ≠ "" := by
      apply renderRelNeEmpty
      intro x hx
      exact hv x (List.mem_of_mem_take hx)
    have hsne : s ≠ "" := by
      have h2 := List.getLast?_eq_getLast_of_ne_nil hpre
      rw [hl] at h2
      have h3 : s = (parts.take i).getLast hpre := by
        exact Option.some.inj h2
      have hmem : s ∈ parts.take i := h3 ▸ List.getLast_mem hpre
      exact hv s (List.mem_of_mem_take hmem)
    have hb1 : (s != "") = true := bne_iff_ne.mpr hsne
    have hb2 : (renderRel (parts.take i) != "") = true := bne_iff_ne.mpr hrne
    simp only [hl, if_neg hrne, List.any_append, List.any_cons, List.any_nil]
    simp [hb1, hb2]

/-- C1: `shouldSkip(p)` is true iff `p` is hidden while hidden-inclusion is
disabled, or `p` is not the root and `p` or some ancestor of `p` (as a last
path segment or as a root-relative subpath, the root's subpath rendering
being `"."`) matches a configured exclude glob pattern.  The hypothesis
excludes empty path segments, which real paths never contain. -/
theorem C1_should_skip_iff_spec (cfg : Config) (parts : List String)
    (hv : ∀ s ∈ parts, s ≠ "") :
    should_skip cfg parts = spec_should_skip cfg parts := by
  unfold should_skip spec_should_skip
  rw [← pathMatchesExcludesEqSpec cfg parts hv]
  have hh : is_hidden cfg parts
      = (cfg.rootParts ++ parts).any (fun part => (part != ".") && startsWithDot part) := rfl
  rw [← hh]
  cases h1 : (!cfg.includeHidden && is_hidden cfg parts) <;>
    cases h2 : (!parts.isEmpty && path_matches_excludes cfg parts) <;> simp_all

/-- Witness for C1 at a concrete input. -/
theorem C1_witness :
    (∀ s ∈ ["src", "a.py"], s ≠ "") ∧
      should_skip ⟨[".git"], false, 300000, false, "r", ["/", "r"]⟩ ["src", "a.py"]
        = spec_should_skip ⟨[".git"], false, 300000, false, "r", ["/", "r"]⟩ ["src", "a.py"] :=
  ⟨by decide, C1_should_skip_iff_spec _ _ (by decide)⟩

/-- C9: for a non-root path the matcher's iteration at prefix length zero
tests the literal string `"."` (the rendering of the empty root-relative
prefix) against every pattern, so a pattern set containing a pattern that
glob-matches `"."` excludes every non-root path, and `should_skip` then
skips the entire subtree under the root. -/
theorem C9_dot_prefix_excludes_all (cfg : Config) (parts : List String)
    (hne : parts ≠ [])
    (hdot : cfg.excludes.any (fun pat => fnmatchcase "." pat) = true) :
    path_matches_excludes cfg parts = true ∧ should_skip cfg parts = true := by
  have hex : path_matches_excludes cfg parts = true := by
    unfold path_matches_excludes
    rw [List.any_eq_true]
    refine ⟨0, by simp, ?_⟩
    simpa [renderRel] using hdot
  refine ⟨hex, ?_⟩
  unfold should_skip
  cases h1 : (!cfg.includeHidden && is_hidden cfg parts) with
  | true => simp
  | false => simp [hex, hne, List.isEmpty_iff]

/-- Witness for C9: the pattern `"*"` glob-matches `"."`, so with
`EXCLUDES = ["*"]` every non-root path is excluded. -/
theorem C9_witness :
    path_matches_excludes ⟨["*"], true, 300000, false, "r", ["/", "r"]⟩ ["a"] = true ∧
      should_skip ⟨["*"], true, 300000, false, "r", ["/", "r"]⟩ ["a"] = true :=
  C9_dot_prefix_excludes_all _ _ (by decide) (by decide)

/-! ### Binary-content detection (`detect_binary` in `src/app.py`) -/

/-- The `text_chars` allow-list of `detect_binary`: bell, backspace,
horizontal tab, newline, form feed, carriage return, escape, and the
range `0x20`-`0xFF`. -/
def isTextByte (b : Nat) : Bool :=
  b == 7 || b == 8 || b == 9 || b == 10 || b == 12 || b == 13 || b == 27 ||
    (decide (0x20 ≤ b) && decide (b < 0x100))

/-- `detect_binary(sample)` from `src/app.py`: binary when the sample
contains a null byte, or when more than 30% of its bytes are outside the
allow-list.  The Python comparison `len(nontext) > len(sample) * 0.30`
uses IEEE doubles; the double nearest 0.30 lies about `1.1e-17` below
3/10, so for every length below `2^49` (far beyond the 8 KiB samples the
program reads) the float comparison coincides with the exact rational
comparison `10 * len(nontext) > 3 * len(sample)` modelled here. -/
def detect_binary (sample : List Nat) : Bool :=
  if sample.contains 0 then true
  else
    let nontext := sample.filter (fun b => !isTextByte b)
    decide (10 * nontext.length > 3 * sample.length)

/-- The allow-list exactly as the claim words it: horizontal tab, newline,
form feed, carriage return, escape, and the printable range `0x20`-`0xFF`
(no bell, no backspace). -/
def claimAllowedByte (b : Nat) : Bool :=
  b == 9 || b == 10 || b == 12 || b == 13 || b == 27 ||
    (decide (0x20 ≤ b) && decide (b ≤ 0xFF))

/-- The binary classifier as the claim words it. -/
def claim_detect_binary (sample : List Nat) : Bool :=
  sample.contains 0 ||
    decide (10 * (sample.filter (fun b => !claimAllowedByte b)).length > 3 * sample.length)

/-- C2 counterexample: a sample consisting of one bell byte (`0x07`).
The code counts bell as text (its allow-list also holds 7 and 8), so it
classifies the sample as non-binary, while the claim's allow-list omits
bell, making 100% of the sample non-text and hence binary. -/
theorem C2_counterexample :
    detect_binary [7] = false ∧ claim_detect_binary [7] = true := by decide

/-- The allow-list of the amended claim: bell and backspace join the
characters the original claim lists. -/
def amendedAllowedByte (b : Nat) : Prop :=
  b ∈ ([7, 8, 9, 10, 12, 13, 27] : List Nat) ∨ (0x20 ≤ b ∧ b ≤ 0xFF)

instance amendedAllowedByteDec : DecidablePred amendedAllowedByte := fun b => by
  unfold amendedAllowedByte; infer_instance

theorem isTextByteIffAllowed (b : Nat) : isTextByte b = true ↔ amendedAllowedByte b := by
  simp only [isTextByte, amendedAllowedByte, List.mem_cons, List.not_mem_nil, or_false,
    Bool.or_eq_true, beq_iff_eq, Bool.and_eq_true, decide_eq_true_eq]
  omega

/-- C2 amended: the classifier returns true iff the sample contains a null
byte or more than 30% of its bytes fall outside the allow-list consisting
of bell, backspace, horizontal tab, newline, form feed, carriage return,
escape, and the range `0x20`-`0xFF`; in particular any sample containing a
null byte is classified binary regardless of the other bytes. -/
theorem C2_amended_binary_iff :
    (∀ sample : List Nat, detect_binary sample = true ↔
        (0 ∈ sample ∨
          10 * sample.countP (fun b => !decide (amendedAllowedByte b)) > 3 * sample.length)) ∧
    (∀ sample : List Nat, 0 ∈ sample → detect_binary sample = true) := by
  have hpt : ∀ b : Nat, (!decide (amendedAllowedByte b)) = (!isTextByte b) := by
    intro b
    cases ht : isTextByte b with
    | true => simp [decide_eq_true ((isTextByteIffAllowed b).mp ht)]
    | false =>
      have hna : ¬ amendedAllowedByte b := fun hca => by
        have h2 := (isTextByteIffAllowed b).mpr hca
        rw [ht] at h2
        exact Bool.noConfusion h2
      simp [decide_eq_false hna]
  have hmemiff : ∀ (l : List Nat), l.contains 0 = true ↔ 0 ∈ l := fun l => List.elem_iff
  constructor
  · intro sample
    by_cases hc : 0 ∈ sample
    · have hct : sample.contains 0 = true := (hmemiff sample).mpr hc
      simp [detect_binary, hct, hc]
    · have hcf : sample.contains 0 = false :=
        Bool.eq_false_iff.mpr (fun h => hc ((hmemiff sample).mp h))
      simp only [detect_binary, hcf, Bool.false_eq_true, if_false,
        List.countP_eq_length_filter, decide_eq_true_eq]
      rw [List.filter_congr (fun b _ => hpt b)]
      constructor
      · exact Or.inr
      · rintro (h | h)
        · exact absurd h hc
        · exact h
  · intro sample h
    have hct : sample.contains 0 = true := (hmemiff sample).mpr h
    simp only [detect_binary, hct, if_true]

/-- Witness for the null-byte part of the amended C2 theorem. -/
theorem C2_amended_witness :
    (0 ∈ ([0, 200] : List Nat)) ∧ detect_binary [0, 200] = true :=
  ⟨by decide, C2_amended_binary_iff.2 [0, 200] (by decide)⟩

/-! ### The materialized tree model (`NodeData` plus the widget tree)

A materialized node carries its own `selected` flag (`NodeData.selected`)
and its materialized children in insertion order, keyed by entry name;
the `path` of a node is implicit in its position under the root.  The
`node_index` dictionary of the app maps a path to the node at that
position, and is kept in sync with the tree by `compose`,
`populate_children` and `action_refresh`; looking a path up in the index
is therefore modelled by walking the tree along the path's parts. -/

inductive MTree where
  | node (selected : Bool) (children : List (String × MTree))

/-- The node's own stored selection flag (`node.data.selected`). -/
def MTree.sel : MTree → Bool
  | .node s _ => s

/-- The node's materialized children (`node.children`). -/
def MTree.kids : MTree → List (String × MTree)
  | .node _ cs => cs

/-- Lookup of a direct child by entry name. -/
def findChild : List (String × MTree) → String → Option MTree
  | [], _ => none
  | (m, t) :: rest, n => if m == n then some t else findChild rest n

mutual

/-- `FileTreeApp.set_node_selected`: store the value on the node and apply
it recursively to every materialized child. -/
def set_node_selected (v : Bool) : MTree → MTree
  | .node _ cs => .node v (setChildrenSelected v cs)

/-- Recursive application of `set_node_selected` over a children list. -/
def setChildrenSelected (v : Bool) : List (String × MTree) → List (String × MTree)
  | [] => []
  | (n, t) :: rest => (n, set_node_selected v t) :: setChildrenSelected v rest

end

/-- `FileTreeApp.action_select_all`: `set_node_selected(root, True)`. -/
def action_select_all (t : MTree) : MTree := set_node_selected true t

/-- `FileTreeApp.action_select_none`: `set_node_selected(root, False)`. -/
def action_select_none (t : MTree) : MTree := set_node_selected false t

/-- `FileTreeApp.is_selected_effective`: the stored selection of the node
at the path if materialized, otherwise of the nearest materialized
ancestor; the walk ends at the root node, which always exists. -/
def is_selected_effective (t : MTree) : List String → Bool
  | [] => t.sel
  | n :: rest =>
    match findChild t.kids n with
    | some c => is_selected_effective c rest
    | none => t.sel

/-- Replace the child with the given name (the position written back by
the upward-propagation walk). -/
def replaceChild : List (String × MTree) → String → MTree → List (String × MTree)
  | [], _, _ => []
  | (m, t) :: rest, n, c => if m == n then (m, c) :: rest else (m, t) :: replaceChild rest n c

/-- `FileTreeApp.update_parent_selection`, recast top-down over the path of
the toggled node: the Boolean result records whether the upward walk is
still running when it leaves this subtree (`true` exactly when every
ancestor check inside the subtree found homogeneous children and updated
the ancestor).  The `while cur and cur.parent is not None` loop of the
source visits the parents of the toggled node from nearest to farthest;
each visit checks whether all materialized children of the parent share
one selection value, stores that value on the parent and continues upward
when they do, and stops the walk when they do not. -/
def update_parent_selection : MTree → List String → MTree × Bool
  | t, [] => (t, true)
  | .node s cs, n :: rest =>
    match findChild cs n with
    | none => (.node s cs, false)
    | some c =>
      let r := update_parent_selection c rest
      let cs2 := replaceChild cs n r.1
      if r.2 then
        let allSel := cs2.all (fun e => e.2.sel)
        let allUnsel := cs2.all (fun e => !e.2.sel)
        if allSel || allUnsel then (.node allSel cs2, true)
        else (.node s cs2, false)
      else (.node s cs2, false)

/-! ### Selection propagation theorems -/

theorem findChildSetChildren (v : Bool) (cs : List (String × MTree)) (n : String) :
    findChild (setChildrenSelected v cs) n = (findChild cs n).map (set_node_selected v) := by
  induction cs with
  | nil => rfl
  | cons e rest ih =>
    obtain ⟨m, t⟩ := e
    by_cases h : (m == n) = true
    · simp [setChildrenSelected, findChild, h]
    · simp only [Bool.not_eq_true] at h
      simp [setChildrenSelected, findChild, h, ih]

theorem isSelectedEffectiveSetNode (v : Bool) (t : MTree) (p : List String) :
    is_selected_effective (set_node_selected v t) p = v := by
  induction p generalizing t with
  | nil =>
    obtain ⟨s, cs⟩ := t
    simp [is_selected_effective, set_node_selected, MTree.sel]
  | cons n rest ih =>
    obtain ⟨s, cs⟩ := t
    simp only [is_selected_effective, set_node_selected, MTree.kids, findChildSetChildren]
    cases h : findChild cs n with
    | none => simp [MTree.sel]
    | some c => simp [ih c]

/-- C6: after `action_select_all` (that is, `set_node_selected(root, True)`)
the effective selection of every path under the root — materialized or
not — is true; after `action_select_none` it is false for every path. -/
theorem C6_select_all_none_effective (t : MTree) (p : List String) :
    is_selected_effective (action_select_all t) p = true ∧
      is_selected_effective (action_select_none t) p = false :=
  ⟨isSelectedEffectiveSetNode true t p, isSelectedEffectiveSetNode false t p⟩

theorem replaceChildOfFound (cs : List (String × MTree)) (n : String) (c : MTree)
    (h : findChild cs n = some c) : replaceChild cs n c = cs := by
  induction cs with
  | nil => simp [findChild] at h
  | cons e rest ih =>
    obtain ⟨m, t⟩ := e
    by_cases hm : (m == n) = true
    · simp only [findChild, hm, if_true, Option.some.injEq] at h
      simp [replaceChild, hm, h]
    · simp only [Bool.not_eq_true] at hm
      simp only [findChild, hm, Bool.false_eq_true, if_false] at h
      simp [replaceChild, hm, ih h]

theorem findChildMem (cs : List (String × MTree)) (n : String) (c : MTree)
    (h : findChild cs n = some c) : ∃ m, (m, c) ∈ cs := by
  induction cs with
  | nil => simp [findChild] at h
  | cons e rest ih =>
    obtain ⟨m, t⟩ := e
    by_cases hm : (m == n) = true
    · simp only [findChild, hm, if_true, Option.some.injEq] at h
      exact ⟨m, by simp [h]⟩
    · simp only [Bool.not_eq_true] at hm
      simp only [findChild, hm, Bool.false_eq_true, if_false] at h
      obtain ⟨m2, hm2⟩ := ih h
      exact ⟨m2, List.mem_cons_of_mem _ hm2⟩

/-- C7: for a materialized node with children `cs` (at least the toggled
child `c` is materialized), the upward propagation started at child `c`
behaves as follows.  If every materialized child shares one selection
value `v`, the node's stored selection becomes `v` and the walk continues
upward (result flag `true`); if two children disagree, the node — and the
whole tree — is left unchanged and the walk stops (result flag `false`). -/
theorem C7_propagate_up_parent (s : Bool) (cs : List (String × MTree))
    (c : String) (sub : MTree) (hfind : findChild cs c = some sub) :
    (∀ v : Bool, (∀ e ∈ cs, MTree.sel e.2 = v) →
        update_parent_selection (.node s cs) [c] = (.node v cs, true)) ∧
    (∀ e1 ∈ cs, ∀ e2 ∈ cs, MTree.sel e1.2 ≠ MTree.sel e2.2 →
        update_parent_selection (.node s cs) [c] = (.node s cs, false)) := by
  have hrepl : replaceChild cs c sub = cs := replaceChildOfFound cs c sub hfind
  have hbase : update_parent_selection sub ([] : List String) = (sub, true) := by
    simp [update_parent_selection]
  constructor
  · intro v hv
    simp only [update_parent_selection, hfind, hbase, hrepl]
    cases v with
    | true =>
      have hall : cs.all (fun e => MTree.sel e.2) = true :=
        List.all_eq_true.mpr (fun e he => hv e he)
      simp [hall]
    | false =>
      have hall : cs.all (fun e => !MTree.sel e.2) = true :=
        List.all_eq_true.mpr (fun e he => by simp [hv e he])
      have hnotall : cs.all (fun e => MTree.sel e.2) = false := by
        obtain ⟨m, hmem⟩ := findChildMem cs c sub hfind
        refine List.all_eq_false.mpr ⟨(m, sub), hmem, ?_⟩
        simp [hv (m, sub) hmem]
      simp [hall, hnotall]
  · intro e1 he1 e2 he2 hne
    simp only [update_parent_selection, hfind, hbase, hrepl]
    have h1 : cs.all (fun e => MTree.sel e.2) = false := by
      cases hs1 : MTree.sel e1.2 with
      | false => exact List.all_eq_false.mpr ⟨e1, he1, by simp [hs1]⟩
      | true =>
        have hs2 : MTree.sel e2.2 = false := by
          cases hs2 : MTree.sel e2.2 with
          | false => rfl
          | true => exact absurd (hs1.trans hs2.symm) hne
        exact List.all_eq_false.mpr ⟨e2, he2, by simp [hs2]⟩
    have h2 : cs.all (fun e => !MTree.sel e.2) = false := by
      cases hs1 : MTree.sel e1.2 with
      | true => exact List.all_eq_false.mpr ⟨e1, he1, by simp [hs1]⟩
      | false =>
        have hs2 : MTree.sel e2.2 = true := by
          cases hs2 : MTree.sel e2.2 with
          | true => rfl
          | false => exact absurd (hs1.trans hs2.symm) hne
        exact List.all_eq_false.mpr ⟨e2, he2, by simp [hs2]⟩
    simp [h1, h2]

/-- Witness for C7: a parent with two children both selected; propagation
from the first child sets the parent to selected and keeps walking. -/
theorem C7_witness :
    update_parent_selection
        (.node false [("x", .node true []), ("y", .node true [])]) ["x"]
      = (.node true [("x", .node true []), ("y", .node true [])], true) :=
  (C7_propagate_up_parent false [("x", .node true []), ("y", .node true [])]
      "x" (.node true []) rfl).1 true (by
    intro e he
    simp only [List.mem_cons, List.not_mem_nil, or_false] at he
    rcases he with h | h <;> simp [h, MTree.sel])

/-! ### Filesystem snapshots

`build_markdown` walks the disk directly, so the model takes a snapshot of
the filesystem: a file holds its byte content plus a flag for whether
opening/reading it succeeds (and the exception text shown on failure); a
directory holds its entries in `iterdir` order plus a flag for whether
listing it succeeds (`iterdir` raising is modelled by `ok = false`). -/

structure FileData where
  content : List Nat
  readOk : Bool
  errMsg : String

inductive FS where
  | file (fd : FileData)
  | dir (ok : Bool) (entries : List (String × FS))

/-- `p.is_dir()` on a snapshot entry. -/
def isDirFS : FS → Bool
  | .file _ => false
  | .dir _ _ => true

/-- ASCII lower-casing of one character (`str.lower` restricted to ASCII;
the names in every concrete instance below are ASCII). -/
def charLower (c : Char) : Char :=
  if c.toNat ≥ 65 && c.toNat ≤ 90 then Char.ofNat (c.toNat + 32) else c

/-- `name.lower()` for sort keys. -/
def lowerName (s : String) : String := String.mk (s.data.map charLower)

/-- The Python sort key order `(not x.is_dir(), x.name.lower())`:
directories first, then case-insensitive name order. -/
def entryLE (a b : String × FS) : Bool :=
  let ka : Bool := !isDirFS a.2
  let kb : Bool := !isDirFS b.2
  ((ka == false) && (kb == true)) ||
    ((ka == kb) && (decide (lowerName a.1 < lowerName b.1) || (lowerName a.1 == lowerName b.1)))

/-- Stable insertion of an element into a sorted list: the element goes in
front of the first entry it compares `≤` to, which preserves the original
relative order of equal keys exactly as Python's stable `sorted`. -/
def ordIns {α : Type} (le : α → α → Bool) (a : α) : List α → List α
  | [] => [a]
  | b :: bs => if le a b then a :: b :: bs else b :: ordIns le a bs

/-- Stable insertion sort modelling Python's `sorted` with a key. -/
def isortBy {α : Type} (le : α → α → Bool) : List α → List α
  | [] => []
  | a :: as => ordIns le a (isortBy le as)

theorem sizeOfOrdIns {α : Type} [SizeOf α] (le : α → α → Bool) (a : α) (l : List α) :
    sizeOf (ordIns le a l) = 1 + sizeOf a + sizeOf l := by
  induction l with
  | nil => simp [ordIns]
  | cons b bs ih =>
    by_cases h : le a b = true
    · simp [ordIns, h]
    · simp only [Bool.not_eq_true] at h
      simp only [ordIns, h, Bool.false_eq_true, if_false, List.cons.sizeOf_spec, ih]
      omega

theorem sizeOfIsortBy {α : Type} [SizeOf α] (le : α → α → Bool) (l : List α) :
    sizeOf (isortBy le l) = sizeOf l := by
  induction l with
  | nil => rfl
  | cons a as ih => simp [isortBy, sizeOfOrdIns, ih]

theorem sizeOfFilterLe {α : Type} [SizeOf α] (p : α → Bool) (l : List α) :
    sizeOf (l.filter p) ≤ sizeOf l := by
  induction l with
  | nil => simp
  | cons a as ih =>
    cases h : p a with
    | true =>
      rw [List.filter_cons_of_pos h]
      simp only [List.cons.sizeOf_spec]
      omega
    | false =>
      rw [List.filter_cons_of_neg (by simp [h])]
      simp only [List.cons.sizeOf_spec]
      omega

theorem memOrdIns {α : Type} (le : α → α → Bool) (a x : α) (l : List α) :
    x ∈ ordIns le a l ↔ x = a ∨ x ∈ l := by
  induction l with
  | nil => simp [ordIns]
  | cons b bs ih =>
    by_cases h : le a b = true
    · simp [ordIns, h]
    · simp only [Bool.not_eq_true] at h
      simp only [ordIns, h, Bool.false_eq_true, if_false, List.mem_cons, ih]
      tauto

theorem memIsortBy {α : Type} (le : α → α → Bool) (x : α) (l : List α) :
    x ∈ isortBy le l ↔ x ∈ l := by
  induction l with
  | nil => simp [isortBy]
  | cons a as ih => simp [isortBy, memOrdIns, ih]

/-! ### Text decoding and small string utilities -/

/-- The Unicode replacement character used by `errors="replace"`. -/
def replChar : Char := Char.ofNat 0xFFFD

/-- A UTF-8 continuation byte. -/
def isCont (b : Nat) : Bool := decide (0x80 ≤ b) && decide (b < 0xC0)

/-- Fuel-driven UTF-8 decoding with `errors="replace"`: well-formed
sequences decode to their scalar value; an invalid leading byte yields one
replacement character and decoding resumes at the next byte; a sequence
broken at a continuation byte yields one replacement character and resumes
at the offending byte, as CPython's decoder does.  The range guards on the
first continuation byte rule out overlong forms, surrogates and values
above `0x10FFFF`, exactly as CPython.  Every step consumes at least one
byte, so fuel `l.length + 1` never runs out. -/
def utf8CharsF : Nat → List Nat → List Char
  | 0, _ => []
  | _ + 1, [] => []
  | fuel + 1, b :: rest =>
    if b < 0x80 then Char.ofNat b :: utf8CharsF fuel rest
    else if b < 0xC2 then replChar :: utf8CharsF fuel rest
    else if b < 0xE0 then
      match rest with
      | b2 :: rest2 =>
        if isCont b2 then
          Char.ofNat ((b - 0xC0) * 0x40 + (b2 - 0x80)) :: utf8CharsF fuel rest2
        else replChar :: utf8CharsF fuel (b2 :: rest2)
      | [] => [replChar]
    else if b < 0xF0 then
      match rest with
      | b2 :: rest2 =>
        if (if b == 0xE0 then decide (0xA0 ≤ b2) && decide (b2 < 0xC0)
            else if b == 0xED then decide (0x80 ≤ b2) && decide (b2 < 0xA0)
            else isCont b2) then
          match rest2 with
          | b3 :: rest3 =>
            if isCont b3 then
              Char.ofNat ((b - 0xE0) * 0x1000 + (b2 - 0x80) * 0x40 + (b3 - 0x80)) ::
                utf8CharsF fuel rest3
            else replChar :: utf8CharsF fuel (b3 :: rest3)
          | [] => [replChar]
        else replChar :: utf8CharsF fuel (b2 :: rest2)
      | [] => [replChar]
    else if b < 0xF5 then
      match rest with
      | b2 :: rest2 =>
        if (if b == 0xF0 then decide (0x90 ≤ b2) && decide (b2 < 0xC0)
            else if b == 0xF4 then decide (0x80 ≤ b2) && decide (b2 < 0x90)
            else isCont b2) then
          match rest2 with
          | b3 :: rest3 =>
            if isCont b3 then
              match rest3 with
              | b4 :: rest4 =>
                if isCont b4 then
                  Char.ofNat ((b - 0xF0) * 0x40000 + (b2 - 0x80) * 0x1000 +
                      (b3 - 0x80) * 0x40 + (b4 - 0x80)) :: utf8CharsF fuel rest4
                else replChar :: utf8CharsF fuel (b4 :: rest4)
              | [] => [replChar]
            else replChar :: utf8CharsF fuel (b3 :: rest3)
          | [] => [replChar]
        else replChar :: utf8CharsF fuel (b2 :: rest2)
      | [] => [replChar]
    else replChar :: utf8CharsF fuel rest

/-- See `utf8CharsF`. -/
def utf8Chars (l : List Nat) : List Char := utf8CharsF (l.length + 1) l

/-- `content.decode("utf-8", errors="replace")`. -/
def decodeUtf8 (l : List Nat) : String := String.mk (utf8Chars l)

/-- UTF-8 encoding of one character. -/
def utf8EncodeChar (c : Char) : List Nat :=
  let n := c.toNat
  if n < 0x80 then [n]
  else if n < 0x800 then [0xC0 + n / 0x40, 0x80 + n % 0x40]
  else if n < 0x10000 then
    [0xE0 + n / 0x1000, 0x80 + (n / 0x40) % 0x40, 0x80 + n % 0x40]
  else
    [0xF0 + n / 0x40000, 0x80 + (n / 0x1000) % 0x40, 0x80 + (n / 0x40) % 0x40, 0x80 + n % 0x40]

/-- UTF-8 bytes of a character list. -/
def bytesOfChars : List Char → List Nat
  | [] => []
  | c :: rest => utf8EncodeChar c ++ bytesOfChars rest

/-- The UTF-8 byte sequence of a string (its size in bytes when written
into the generated document). -/
def utf8Bytes (s : String) : List Nat := bytesOfChars s.data

/-- `text.rstrip("\n")`: remove trailing newline characters. -/
def rstripNewlines (s : String) : String :=
  String.mk ((s.data.reverse.dropWhile (fun c => c == '\n')).reverse)

/-- The fixed extension-to-language table `EXT_LANG` of `src/app.py`. -/
def EXT_LANG : List (String × String) :=
  [(".py", "python"), (".js", "javascript"), (".ts", "typescript"),
   (".json", "json"), (".yml", "yaml"), (".yaml", "yaml"),
   (".toml", "toml"), (".ini", "ini"), (".sh", "bash"),
   (".md", "markdown"), (".html", "html"), (".css", "css"),
   (".go", "go"), (".rs", "rust"), (".java", "java"),
   (".c", "c"), (".h", "c"), (".cpp", "cpp"), (".hpp", "cpp"),
   (".rb", "ruby"), (".php", "php")]

/-- Index of the last dot in a character list, if any. -/
def lastDotPos : List Char → Option Nat
  | [] => none
  | c :: rest =>
    match lastDotPos rest with
    | some i => some (i + 1)
    | none => if c == '.' then some 0 else none

/-- `pathlib.Path.suffix` of a file name: the substring from the last dot,
provided that dot is neither the first nor the last character. -/
def pathSuffix (name : String) : String :=
  match lastDotPos name.data with
  | some i =>
    if 0 < i && i + 1 < name.data.length then String.mk (name.data.drop i) else ""
  | none => ""

/-- Association lookup in the extension table (`dict.get` with default
`""`). -/
def lookupLang : List (String × String) → String → String
  | [], _ => ""
  | (k, v) :: rest, s => if k == s then v else lookupLang rest s

/-- `code_lang_for(path)` from `src/app.py`. -/
def code_lang_for (name : String) : String :=
  lookupLang EXT_LANG (lowerName (pathSuffix name))

/-- The default selection glyphs `ICON_SELECTED` / `ICON_UNSELECTED`. -/
def ICON_SEL : String := "◉"

/-- See `ICON_SEL`. -/
def ICON_UNSEL : String := "◯"

/-- Containment of one character list in another as a contiguous run. -/
def listContainsSub (needle : List Char) : List Char → Bool
  | [] => needle.isEmpty
  | c :: t => needle.isPrefixOf (c :: t) || listContainsSub needle t

/-- Substring containment on strings (`needle in hay`). -/
def strContainsSub (hay needle : String) : Bool := listContainsSub needle.data hay.data

/-! ### DocumentBuilder (`build_markdown` and `iter_files`) -/

/-- The entry listing of the tree-rendering phase:
`sorted([p for p in dir_path.iterdir() if not self.should_skip(p)],
key=lambda x: (not x.is_dir(), x.name.lower()))`. -/
def visibleSorted (cfg : Config) (dirPath : List String)
    (entries : List (String × FS)) : List (String × FS) :=
  isortBy entryLE (entries.filter (fun e => !should_skip cfg (dirPath ++ [e.1])))

mutual

/-- The recursive `tree_lines` closure of `build_markdown`: list the
directory (a listing failure yields no entries), and render each surviving
entry.  Defined on the snapshot node of the directory being listed; files
and unlistable directories contribute nothing. -/
def tree_lines (cfg : Config) (mt : MTree) (incUnsel : Bool)
    (fs : FS) (dirPath : List String) (pre : String) : List String :=
  match fs with
  | .file _ => []
  | .dir false _ => []
  | .dir true entries => treeGo cfg mt incUnsel (visibleSorted cfg dirPath entries) dirPath pre
termination_by sizeOf fs
decreasing_by
  calc sizeOf (visibleSorted cfg dirPath entries)
      = sizeOf (entries.filter (fun e => !should_skip cfg (dirPath ++ [e.1]))) :=
        sizeOfIsortBy _ _
    _ ≤ sizeOf entries := sizeOfFilterLe _ _
    _ < sizeOf (FS.dir true entries) := by simp [FS.dir.sizeOf_spec]

/-- The `for idx, p in enumerate(entries)` loop body of `tree_lines`: one
line per entry whose effective selection passes the filter, and recursion
into every subdirectory regardless of whether the entry's line was
emitted. -/
def treeGo (cfg : Config) (mt : MTree) (incUnsel : Bool)
    (es : List (String × FS)) (dirPath : List String) (pre : String) : List String :=
  match es with
  | [] => []
  | (n, sub) :: rest =>
    let last := rest.isEmpty
    let sel := is_selected_effective mt (dirPath ++ [n])
    let line : List String :=
      if incUnsel || sel then
        [pre ++ (if last then "└── " else "├── ") ++ (if sel then ICON_SEL else ICON_UNSEL)
          ++ " " ++ n]
      else []
    let deeper : List String :=
      if isDirFS sub then
        tree_lines cfg mt incUnsel sub (dirPath ++ [n]) (pre ++ (if last then "    " else "│   "))
      else []
    line ++ deeper ++ treeGo cfg mt incUnsel rest dirPath pre
termination_by sizeOf es
decreasing_by
  · simp only [List.cons.sizeOf_spec, Prod.mk.sizeOf_spec]; omega
  · simp only [List.cons.sizeOf_spec]; omega

end

mutual

/-- `FileTreeApp.iter_files`: depth-first walk yielding every non-skipped
file (with its data) under the given directory, in `iterdir` order; a
directory whose listing fails contributes nothing. -/
def iter_files (cfg : Config) (fs : FS) (dirPath : List String) :
    List (List String × FileData) :=
  match fs with
  | .file _ => []
  | .dir false _ => []
  | .dir true entries =>
    iterGo cfg (entries.filter (fun e => !should_skip cfg (dirPath ++ [e.1]))) dirPath
termination_by sizeOf fs
decreasing_by
  calc sizeOf (entries.filter (fun e => !should_skip cfg (dirPath ++ [e.1])))
      ≤ sizeOf entries := sizeOfFilterLe _ _
    _ < sizeOf (FS.dir true entries) := by simp [FS.dir.sizeOf_spec]

/-- The `for p in start.iterdir()` loop of `iter_files`. -/
def iterGo (cfg : Config) (es : List (String × FS)) (dirPath : List String) :
    List (List String × FileData) :=
  match es with
  | [] => []
  | (n, .file fd) :: rest => (dirPath ++ [n], fd) :: iterGo cfg rest dirPath
  | (n, .dir ok sube) :: rest =>
    iter_files cfg (.dir ok sube) (dirPath ++ [n]) ++ iterGo cfg rest dirPath
termination_by sizeOf es
decreasing_by
  · simp only [List.cons.sizeOf_spec, Prod.mk.sizeOf_spec]; omega
  · simp only [List.cons.sizeOf_spec, Prod.mk.sizeOf_spec]; omega
  · simp only [List.cons.sizeOf_spec]; omega

end

/-- The lines `build_markdown` appends for one yielded file (after its
effective-selection check): the subsection header, then either an inline
read-error notice (the whole `try` block fails), a binary placeholder, or
the fenced content.  The source reads `sample = fh.read(min(MAX_BYTES + 1,
8192))` and then — `len(sample) <= 8192` always holds — the remainder
`fh.read(MAX_BYTES + 1 - len(sample))`; truncation to `MAX_BYTES` bytes
happens when the read exceeded the limit, the text is decoded with
replacement and its trailing newlines stripped, and a truncation notice
naming the byte limit follows the fence when truncated. -/
def fileSection (cfg : Config) (rel : List String) (fd : FileData) : List String :=
  let header := "\n### `" ++ joinSlash rel ++ "`\n"
  if fd.readOk = false then
    [header, "_Error reading file: " ++ fd.errMsg ++ "_"]
  else
    let sample := fd.content.take (min (cfg.maxBytes + 1) 8192)
    if detect_binary sample && !cfg.readBinary then
      [header, "_Binary file — content not embedded._"]
    else
      let content1 := sample ++ (fd.content.drop sample.length).take (cfg.maxBytes + 1 - sample.length)
      let truncated := decide (content1.length > cfg.maxBytes)
      let content2 := if truncated then content1.take cfg.maxBytes else content1
      let text := decodeUtf8 content2
      let lang := code_lang_for (rel.getLast?.getD "")
      let fence := if lang == "" then "```" else "```" ++ lang
      [header, fence, rstripNewlines text, "```"] ++
        (if truncated then ["_...truncated at " ++ toString cfg.maxBytes ++ " bytes_"] else [])

/-- Concatenation of the per-element line lists (the `for path in
self.iter_files(ROOT)` loop appending to `lines`). -/
def flatMapL {α β : Type} (f : α → List β) : List α → List β
  | [] => []
  | a :: rest => f a ++ flatMapL f rest

/-- The Contents section of `build_markdown`: every yielded file whose
effective selection is true contributes its section (the `is_dir` guard of
the loop never fires, since `iter_files` yields files only). -/
def contentsLines (cfg : Config) (mt : MTree) (fs : FS) : List String :=
  flatMapL
    (fun e => if is_selected_effective mt e.1 then fileSection cfg e.1 e.2 else [])
    (iter_files cfg fs [])

/-- `FileTreeApp.build_markdown`: the full `lines` list — title, root
name, tree lines, separator, Contents header, file sections. -/
def build_markdown (cfg : Config) (mt : MTree) (fs : FS) (include_unselected : Bool) :
    List String :=
  ["# File Tree for `" ++ cfg.rootName ++ "`\n"] ++
    [cfg.rootName] ++
    tree_lines cfg mt include_unselected fs [] "" ++
    ["\n---\n", "## Selected files\n"] ++
    contentsLines cfg mt fs

/-- The returned document: `"\n".join(lines)`. -/
def documentText (cfg : Config) (mt : MTree) (fs : FS) (include_unselected : Bool) : String :=
  String.intercalate "\n" (build_markdown cfg mt fs include_unselected)

/-! ### Unfolding lemmas for the walkers -/

theorem treeLinesFile (cfg : Config) (mt : MTree) (inc : Bool) (fd : FileData)
    (dirPath : List String) (pre : String) :
    tree_lines cfg mt inc (.file fd) dirPath pre = [] := by
  simp [tree_lines]

theorem treeLinesDirFail (cfg : Config) (mt : MTree) (inc : Bool)
    (es : List (String × FS)) (dirPath : List String) (pre : String) :
    tree_lines cfg mt inc (.dir false es) dirPath pre = [] := by
  simp [tree_lines]

theorem treeLinesDirOk (cfg : Config) (mt : MTree) (inc : Bool)
    (es : List (String × FS)) (dirPath : List String) (pre : String) :
    tree_lines cfg mt inc (.dir true es) dirPath pre
      = treeGo cfg mt inc (visibleSorted cfg dirPath es) dirPath pre := by
  simp [tree_lines]

theorem treeGoNil (cfg : Config) (mt : MTree) (inc : Bool)
    (dirPath : List String) (pre : String) :
    treeGo cfg mt inc [] dirPath pre = [] := by
  simp [treeGo]

theorem treeGoCons (cfg : Config) (mt : MTree) (inc : Bool) (n : String) (sub : FS)
    (rest : List (String × FS)) (dirPath : List String) (pre : String) :
    treeGo cfg mt inc ((n, sub) :: rest) dirPath pre
      = (if inc || is_selected_effective mt (dirPath ++ [n]) then
          [pre ++ (if rest.isEmpty then "└── " else "├── ")
            ++ (if is_selected_effective mt (dirPath ++ [n]) then ICON_SEL else ICON_UNSEL)
            ++ " " ++ n]
         else []) ++
        (if isDirFS sub then
          tree_lines cfg mt inc sub (dirPath ++ [n])
            (pre ++ (if rest.isEmpty then "    " else "│   "))
         else []) ++
        treeGo cfg mt inc rest dirPath pre := by
  rw [treeGo]

theorem iterFilesFile (cfg : Config) (fd : FileData) (dirPath : List String) :
    iter_files cfg (.file fd) dirPath = [] := by
  simp [iter_files]

theorem iterFilesDirFail (cfg : Config) (es : List (String × FS)) (dirPath : List String) :
    iter_files cfg (.dir false es) dirPath = [] := by
  simp [iter_files]

theorem iterFilesDirOk (cfg : Config) (es : List (String × FS)) (dirPath : List String) :
    iter_files cfg (.dir true es) dirPath
      = iterGo cfg (es.filter (fun e => !should_skip cfg (dirPath ++ [e.1]))) dirPath := by
  simp [iter_files]

theorem iterGoNil (cfg : Config) (dirPath : List String) :
    iterGo cfg [] dirPath = [] := by
  simp [iterGo]

theorem iterGoConsFile (cfg : Config) (n : String) (fd : FileData)
    (rest : List (String × FS)) (dirPath : List String) :
    iterGo cfg ((n, .file fd) :: rest) dirPath
      = (dirPath ++ [n], fd) :: iterGo cfg rest dirPath := by
  rw [iterGo]

theorem iterGoConsDir (cfg : Config) (n : String) (ok : Bool) (sube : List (String × FS))
    (rest : List (String × FS)) (dirPath : List String) :
    iterGo cfg ((n, .dir ok sube) :: rest) dirPath
      = iter_files cfg (.dir ok sube) (dirPath ++ [n]) ++ iterGo cfg rest dirPath := by
  rw [iterGo]

theorem flatMapLAppend {α β : Type} (f : α → List β) (l1 l2 : List α) :
    flatMapL f (l1 ++ l2) = flatMapL f l1 ++ flatMapL f l2 := by
  induction l1 with
  | nil => rfl
  | cons a t ih => simp [flatMapL, ih]

/-- C8: local error recovery of `build_markdown`.  A directory whose
listing fails contributes zero entries to the tree section and zero files
to the contents walk (it behaves exactly like an empty directory); a file
whose read fails contributes its header plus an inline error notice, and
every other yielded file's section is unaffected; and the document always
consists of the title, root line, tree lines, separator, Contents header
and file sections — no snapshot error aborts the build. -/
theorem C8_error_recovery :
    (∀ (cfg : Config) (mt : MTree) (inc : Bool) (es : List (String × FS))
        (dirPath : List String) (pre : String),
        tree_lines cfg mt inc (.dir false es) dirPath pre = [] ∧
        tree_lines cfg mt inc (.dir false es) dirPath pre
          = tree_lines cfg mt inc (.dir true []) dirPath pre) ∧
    (∀ (cfg : Config) (es : List (String × FS)) (dirPath : List String),
        iter_files cfg (.dir false es) dirPath = [] ∧
        iter_files cfg (.dir false es) dirPath = iter_files cfg (.dir true []) dirPath) ∧
    (∀ (cfg : Config) (rel : List String) (content : List Nat) (msg : String),
        fileSection cfg rel ⟨content, false, msg⟩
          = ["\n### `" ++ joinSlash rel ++ "`\n", "_Error reading file: " ++ msg ++ "_"]) ∧
    (∀ (cfg : Config) (mt : MTree) (fs : FS) (l1 l2 : List (List String × FileData))
        (rel : List String) (content : List Nat) (msg : String),
        iter_files cfg fs [] = l1 ++ (rel, ⟨content, false, msg⟩) :: l2 →
        is_selected_effective mt rel = true →
        contentsLines cfg mt fs
          = flatMapL (fun e => if is_selected_effective mt e.1 then fileSection cfg e.1 e.2 else []) l1
            ++ ["\n### `" ++ joinSlash rel ++ "`\n", "_Error reading file: " ++ msg ++ "_"]
            ++ flatMapL (fun e => if is_selected_effective mt e.1 then fileSection cfg e.1 e.2 else []) l2) ∧
    (∀ (cfg : Config) (mt : MTree) (fs : FS) (inc : Bool), ∃ t c,
        build_markdown cfg mt fs inc
          = ["# File Tree for `" ++ cfg.rootName ++ "`\n", cfg.rootName] ++ t
            ++ ["\n---\n", "## Selected files\n"] ++ c) := by
  have hsec : ∀ (cfg : Config) (rel : List String) (content : List Nat) (msg : String),
      fileSection cfg rel ⟨content, false, msg⟩
        = ["\n### `" ++ joinSlash rel ++ "`\n", "_Error reading file: " ++ msg ++ "_"] := by
    intro cfg rel content msg
    simp [fileSection]
  refine ⟨?_, ?_, hsec, ?_, ?_⟩
  · intro cfg mt inc es dirPath pre
    refine ⟨treeLinesDirFail cfg mt inc es dirPath pre, ?_⟩
    rw [treeLinesDirFail, treeLinesDirOk,
      show visibleSorted cfg dirPath [] = [] from rfl, treeGoNil]
  · intro cfg es dirPath
    refine ⟨iterFilesDirFail cfg es dirPath, ?_⟩
    rw [iterFilesDirFail, iterFilesDirOk]
    exact (iterGoNil cfg dirPath).symm
  · intro cfg mt fs l1 l2 rel content msg hiter hsel
    rw [contentsLines, hiter, flatMapLAppend]
    rw [show flatMapL (fun e => if is_selected_effective mt e.1 then fileSection cfg e.1 e.2 else [])
          ((rel, ⟨content, false, msg⟩) :: l2)
        = (if is_selected_effective mt rel then fileSection cfg rel ⟨content, false, msg⟩ else [])
          ++ flatMapL (fun e => if is_selected_effective mt e.1 then fileSection cfg e.1 e.2 else []) l2
      from rfl]
    rw [hsel, if_pos rfl, hsec]
    simp
  · intro cfg mt fs inc
    exact ⟨tree_lines cfg mt inc fs [] "", contentsLines cfg mt fs, by simp [build_markdown]⟩

/-- Witness for C8 at a concrete snapshot: the first file fails to read,
the second is still processed. -/
theorem C8_witness :
    contentsLines ⟨[], true, 10, false, "r", ["/", "r"]⟩ (.node true [])
        (.dir true [("a.txt", .file ⟨[97], false, "boom"⟩), ("b.txt", .file ⟨[98], true, ""⟩)])
      = [] ++ ["\n### `a.txt`\n", "_Error reading file: boom_"]
        ++ ["\n### `b.txt`\n", "```", "b", "```"] := by
  have happly := C8_error_recovery.2.2.2.1 ⟨[], true, 10, false, "r", ["/", "r"]⟩
    (.node true [])
    (.dir true [("a.txt", .file ⟨[97], false, "boom"⟩), ("b.txt", .file ⟨[98], true, ""⟩)])
    [] [(["b.txt"], ⟨[98], true, ""⟩)] ["a.txt"] [97] "boom"
    (by rw [iterFilesDirOk]
        show iterGo ⟨[], true, 10, false, "r", ["/", "r"]⟩
          [("a.txt", FS.file ⟨[97], false, "boom"⟩), ("b.txt", FS.file ⟨[98], true, ""⟩)]
          [] = _
        rw [iterGoConsFile, iterGoConsFile, iterGoNil]
        rfl)
    rfl
  rw [happly]
  rfl

/-! ### The content pipeline of one file section -/

theorem readPipelineTake (c : List Nat) (M : Nat) :
    c.take (min (M + 1) 8192)
        ++ (c.drop (c.take (min (M + 1) 8192)).length).take
            (M + 1 - (c.take (min (M + 1) 8192)).length)
      = c.take (M + 1) := by
  set k := min (M + 1) 8192 with hk
  have hkM : k ≤ M + 1 := min_le_left _ _
  by_cases hlen : c.length ≤ k
  · have h1 : c.take k = c := List.take_of_length_le hlen
    rw [h1, List.drop_length]
    simp [List.take_of_length_le (le_trans hlen hkM)]
  · push_neg at hlen
    have h2 : (c.take k).length = k := by
      rw [List.length_take]
      omega
    rw [h2, ← List.take_add]
    congr 1
    omega

theorem fileSectionOk (cfg : Config) (rel : List String) (c : List Nat) (msg : String)
    (hbin : detect_binary (c.take (min (cfg.maxBytes + 1) 8192)) = false ∨ cfg.readBinary = true) :
    fileSection cfg rel ⟨c, true, msg⟩
      = ["\n### `" ++ joinSlash rel ++ "`\n",
         (if code_lang_for (rel.getLast?.getD "") == "" then "```"
          else "```" ++ code_lang_for (rel.getLast?.getD "")),
         rstripNewlines (decodeUtf8 (if c.length > cfg.maxBytes then c.take cfg.maxBytes else c)),
         "```"] ++
        (if c.length > cfg.maxBytes then
          ["_...truncated at " ++ toString cfg.maxBytes ++ " bytes_"] else []) := by
  have hguard : (detect_binary (c.take (min (cfg.maxBytes + 1) 8192)) && !cfg.readBinary) = false := by
    rcases hbin with h | h
    · rw [h]; rfl
    · rw [h]; simp
  have htake := readPipelineTake c cfg.maxBytes
  have hlentake : (c.take (cfg.maxBytes + 1)).length = min (cfg.maxBytes + 1) c.length :=
    List.length_take _ _
  have hdec : decide ((c.take (cfg.maxBytes + 1)).length > cfg.maxBytes)
      = decide (c.length > cfg.maxBytes) := by
    rw [hlentake]
    by_cases h : c.length > cfg.maxBytes
    · rw [decide_eq_true (by omega : min (cfg.maxBytes + 1) c.length > cfg.maxBytes),
        decide_eq_true h]
    · rw [decide_eq_false (by omega : ¬ min (cfg.maxBytes + 1) c.length > cfg.maxBytes),
        decide_eq_false h]
  simp only [fileSection, hguard, htake, hdec]
  by_cases h : c.length > cfg.maxBytes
  · have hmin : min cfg.maxBytes (cfg.maxBytes + 1) = cfg.maxBytes := by omega
    simp [decide_eq_true h, h, List.take_take, hmin]
  · have hle : c.length ≤ cfg.maxBytes + 1 := by omega
    simp [decide_eq_false h, h, List.take_of_length_le hle]

/-! ### ASCII round-trip and trailing-newline facts -/

theorem charOfNatToNat (b : Nat) (h : b < 0x80) : (Char.ofNat b).toNat = b := by
  have hv : Nat.isValidChar b := Or.inl (by omega)
  simp [Char.ofNat, hv, Char.toNat, Char.ofNatAux, UInt32.toNat, UInt32.ofNat',
    BitVec.toNat_ofNatLt]

theorem isPrefixOfAppendSelf (l t : List Char) : l.isPrefixOf (l ++ t) = true := by
  induction l with
  | nil => simp [List.isPrefixOf]
  | cons a as ih => simp [List.isPrefixOf, ih]

/-- The number of trailing newline characters of a string. -/
def trailingNewlines (s : String) : Nat :=
  (s.data.reverse.takeWhile (fun c => c == '\n')).length

theorem rstripSplit (s : String) :
    s.data = (rstripNewlines s).data ++ List.replicate (trailingNewlines s) '\n' := by
  have h0 := List.takeWhile_append_dropWhile (p := fun c => c == '\n') (l := s.data.reverse)
  have hdec : s.data = (s.data.reverse.dropWhile (fun c => c == '\n')).reverse
      ++ (s.data.reverse.takeWhile (fun c => c == '\n')).reverse := by
    calc s.data = s.data.reverse.reverse := (List.reverse_reverse _).symm
      _ = (List.takeWhile (fun c => c == '\n') s.data.reverse
            ++ List.dropWhile (fun c => c == '\n') s.data.reverse).reverse := by rw [h0]
      _ = (List.dropWhile (fun c => c == '\n') s.data.reverse).reverse
            ++ (List.takeWhile (fun c => c == '\n') s.data.reverse).reverse := by
          rw [List.reverse_append]
  have hrepl : s.data.reverse.takeWhile (fun c => c == '\n')
      = List.replicate (trailingNewlines s) '\n' :=
    List.eq_replicate_of_mem (fun b hb => by
      have := List.mem_takeWhile_imp hb
      simpa using this)
  calc s.data
      = (s.data.reverse.dropWhile (fun c => c == '\n')).reverse
          ++ (s.data.reverse.takeWhile (fun c => c == '\n')).reverse := hdec
    _ = (rstripNewlines s).data ++ List.replicate (trailingNewlines s) '\n' := by
        rw [hrepl, List.reverse_replicate]
        rfl

theorem fullWithinOneNewline (s : String) (h : trailingNewlines s ≤ 1) :
    s.data.isPrefixOf ((rstripNewlines s).data ++ ['\n']) = true := by
  have hsplit := rstripSplit s
  rcases Nat.le_one_iff_eq_zero_or_eq_one.mp h with h0 | h1
  · rw [h0] at hsplit
    simp only [List.replicate, List.append_nil] at hsplit
    rw [hsplit]
    exact isPrefixOfAppendSelf _ _
  · rw [h1] at hsplit
    simp only [List.replicate] at hsplit
    rw [hsplit]
    have h2 := isPrefixOfAppendSelf ((rstripNewlines s).data ++ ['\n']) []
    simp only [List.append_nil] at h2
    exact h2

theorem rstripNoopOfLastNotNewline (s : String)
    (h : ∀ c, s.data.getLast? = some c → c ≠ '\n') : rstripNewlines s = s := by
  cases hrev : s.data.reverse with
  | nil =>
    have hnil : s.data = [] := by
      have := congrArg List.reverse hrev
      simpa using this
    cases s with
    | mk d => simp only [rstripNewlines]
              simp_all
  | cons c t =>
    have hlast : s.data.getLast? = some c := by
      rw [← List.head?_reverse, hrev]
      rfl
    have hc : (c == '\n') = false := by
      have := h c hlast
      simp [this]
    cases s with
    | mk d =>
      simp only [rstripNewlines] at *
      rw [hrev, List.dropWhile_cons, hc]
      simp only [Bool.false_eq_true, if_false]
      rw [← hrev]
      simp

theorem utf8CharsFAscii (l : List Nat) (fuel : Nat) (hf : l.length < fuel)
    (h : ∀ b ∈ l, b < 0x80) :
    utf8CharsF fuel l = l.map (fun b => Char.ofNat b) := by
  induction l generalizing fuel with
  | nil =>
    cases fuel with
    | zero => omega
    | succ n => rfl
  | cons b rest ih =>
    cases fuel with
    | zero => omega
    | succ n =>
      have hb : b < 0x80 := h b (by simp)
      simp only [utf8CharsF, if_pos hb, List.map_cons]
      rw [ih n (by simpa using Nat.lt_of_succ_lt_succ hf) (fun x hx => h x (by simp [hx]))]

theorem asciiDecode (l : List Nat) (h : ∀ b ∈ l, b < 0x80) :
    (decodeUtf8 l).data = l.map (fun b => Char.ofNat b) := by
  simp only [decodeUtf8, utf8Chars]
  rw [utf8CharsFAscii l (l.length + 1) (by omega) h]

theorem asciiEncode (l : List Nat) (h : ∀ b ∈ l, b < 0x80) :
    bytesOfChars (l.map (fun b => Char.ofNat b)) = l := by
  induction l with
  | nil => rfl
  | cons b rest ih =>
    have hb : b < 0x80 := h b (by simp)
    simp only [List.map_cons, bytesOfChars, utf8EncodeChar, charOfNatToNat b hb, if_pos hb]
    rw [ih (fun x hx => h x (by simp [hx]))]
    rfl

theorem flatMapLCons {α β : Type} (f : α → List β) (a : α) (l : List α) :
    flatMapL f (a :: l) = f a ++ flatMapL f l := rfl

/-- Every yielded, effectively selected file's section appears contiguously
in the `lines` list that `build_markdown` returns. -/
theorem buildContainsSection (cfg : Config) (mt : MTree) (fs : FS) (inc : Bool)
    (rel : List String) (fd : FileData)
    (hmem : (rel, fd) ∈ iter_files cfg fs [])
    (hsel : is_selected_effective mt rel = true) :
    ∃ A B, build_markdown cfg mt fs inc = A ++ fileSection cfg rel fd ++ B := by
  obtain ⟨l1, l2, hsplit⟩ := List.mem_iff_append.mp hmem
  refine ⟨["# File Tree for `" ++ cfg.rootName ++ "`\n", cfg.rootName]
      ++ tree_lines cfg mt inc fs [] "" ++ ["\n---\n", "## Selected files\n"]
      ++ flatMapL (fun e => if is_selected_effective mt e.1 then fileSection cfg e.1 e.2 else []) l1,
    flatMapL (fun e => if is_selected_effective mt e.1 then fileSection cfg e.1 e.2 else []) l2,
    ?_⟩
  rw [build_markdown, contentsLines, hsplit, flatMapLAppend, flatMapLCons, hsel, if_pos rfl]
  simp

/-- C3 amended: a selected, non-binary file of size at most
`maxBytesPerFile` contributes to the document the four-line section
header / fence / decoded content with trailing newlines stripped / closing
fence — with no truncation notice; since the lines are joined with a
newline, content ending in at most one newline therefore appears in full
inside the fenced block (its text is a prefix of the block interior). -/
theorem C3_full_content_upto_trailing_newlines (cfg : Config) (mt : MTree) (fs : FS)
    (inc : Bool) (rel : List String) (c : List Nat) (msg : String)
    (hmem : (rel, ⟨c, true, msg⟩) ∈ iter_files cfg fs [])
    (hsel : is_selected_effective mt rel = true)
    (hsize : c.length ≤ cfg.maxBytes)
    (hbin : detect_binary (c.take (min (cfg.maxBytes + 1) 8192)) = false) :
    (∃ A B, build_markdown cfg mt fs inc
        = A ++ ["\n### `" ++ joinSlash rel ++ "`\n",
            (if code_lang_for (rel.getLast?.getD "") == "" then "```"
             else "```" ++ code_lang_for (rel.getLast?.getD "")),
            rstripNewlines (decodeUtf8 c), "```"] ++ B) ∧
    (trailingNewlines (decodeUtf8 c) ≤ 1 →
      (decodeUtf8 c).data.isPrefixOf
        ((rstripNewlines (decodeUtf8 c)).data ++ ['\n']) = true) := by
  have hnot : ¬ (c.length > cfg.maxBytes) := by omega
  have hsec := fileSectionOk cfg rel c msg (Or.inl hbin)
  simp only [if_neg hnot, List.append_nil] at hsec
  obtain ⟨A, B, hb⟩ := buildContainsSection cfg mt fs inc rel ⟨c, true, msg⟩ hmem hsel
  rw [hsec] at hb
  exact ⟨⟨A, B, hb⟩, fun h => fullWithinOneNewline _ h⟩

/-- The configuration of the concrete examples: no excludes, hidden files
included, `MAX_BYTES = 4`, binaries not embedded, root named `r`. -/
def egConfig : Config := ⟨[], true, 4, false, "r", ["/", "r"]⟩

/-- A root whose children are unmaterialized (only the root node exists),
root selected. -/
def egTree : MTree := .node true []

/-- Snapshot for C3: one file `a.txt` of three bytes `b\n\n`. -/
def egFsA : FS := .dir true [("a.txt", .file ⟨[98, 10, 10], true, ""⟩)]

theorem egFsAIter :
    iter_files egConfig egFsA []
      = [(["a.txt"], ⟨[98, 10, 10], true, ""⟩)] := by
  rw [egFsA, egConfig, iterFilesDirOk]
  show iterGo ⟨[], true, 4, false, "r", ["/", "r"]⟩
    [("a.txt", FS.file ⟨[98, 10, 10], true, ""⟩)] [] = _
  rw [iterGoConsFile, iterGoNil]
  rfl

theorem egFsABuild :
    build_markdown egConfig egTree egFsA false
      = ["# File Tree for `r`\n", "r", "└── ◉ a.txt", "\n---\n", "## Selected files\n",
         "\n### `a.txt`\n", "```", "b", "```"] := by
  rw [build_markdown, contentsLines, egFsAIter]
  rw [egFsA, egConfig, egTree, treeLinesDirOk]
  show (["# File Tree for `r`\n"] ++ ["r"]
      ++ treeGo ⟨[], true, 4, false, "r", ["/", "r"]⟩ (.node true []) false
          [("a.txt", FS.file ⟨[98, 10, 10], true, ""⟩)] [] ""
      ++ ["\n---\n", "## Selected files\n"] ++ _) = _
  rw [treeGoCons, treeGoNil]
  rfl

/-- C3 counterexample: the file `a.txt` holds the three bytes `b\n\n`,
is selected, fits in `MAX_BYTES = 4` and is not binary, yet its decoded
content `"b\n\n"` appears nowhere in the generated document — the
`rstrip("\n")` in `build_markdown` emits only `"b"` inside the fence. -/
theorem C3_counterexample :
    ((["a.txt"], (⟨[98, 10, 10], true, ""⟩ : FileData)) ∈ iter_files egConfig egFsA []) ∧
    is_selected_effective egTree ["a.txt"] = true ∧
    ([98, 10, 10] : List Nat).length ≤ egConfig.maxBytes ∧
    detect_binary (([98, 10, 10] : List Nat).take (min (egConfig.maxBytes + 1) 8192)) = false ∧
    decodeUtf8 [98, 10, 10] = "b\n\n" ∧
    strContainsSub (documentText egConfig egTree egFsA false) (decodeUtf8 [98, 10, 10])
      = false := by
  refine ⟨by rw [egFsAIter]; simp, by decide, by decide, by decide, by decide, ?_⟩
  rw [documentText, egFsABuild]
  decide

/-- Witness for the amended C3 theorem at the concrete snapshot. -/
theorem C3_witness :
    ∃ A B, build_markdown egConfig egTree egFsA false
        = A ++ ["\n### `" ++ joinSlash ["a.txt"] ++ "`\n",
            (if code_lang_for (["a.txt"].getLast?.getD "") == "" then "```"
             else "```" ++ code_lang_for (["a.txt"].getLast?.getD "")),
            rstripNewlines (decodeUtf8 [98, 10, 10]), "```"] ++ B :=
  (C3_full_content_upto_trailing_newlines egConfig egTree egFsA false
    ["a.txt"] [98, 10, 10] ""
    (by rw [egFsAIter]; simp) (by decide) (by decide) (by decide)).1

theorem getLastMemOfSome {α : Type} (l : List α) (a : α) (h : l.getLast? = some a) :
    a ∈ l := by
  have hne : l ≠ [] := by intro hc; rw [hc] at h; simp at h
  have h2 := List.getLast?_eq_getLast_of_ne_nil hne
  rw [h] at h2
  have h3 : a = l.getLast hne := Option.some.inj h2
  exact h3 ▸ List.getLast_mem hne

/-- C4 amended: a selected, non-binary file of size `maxBytesPerFile + 100`
contributes the five-line section header / fence / first `maxBytesPerFile`
bytes decoded with replacement and trailing newlines stripped / closing
fence / truncation notice naming the byte limit; when those first bytes
are ASCII and do not end in a newline, the fenced line is exactly the
first `maxBytesPerFile` bytes of the file. -/
theorem C4_truncated_content (cfg : Config) (mt : MTree) (fs : FS)
    (inc : Bool) (rel : List String) (c : List Nat) (msg : String)
    (hmem : (rel, ⟨c, true, msg⟩) ∈ iter_files cfg fs [])
    (hsel : is_selected_effective mt rel = true)
    (hsize : c.length = cfg.maxBytes + 100)
    (hbin : detect_binary (c.take (min (cfg.maxBytes + 1) 8192)) = false) :
    (∃ A B, build_markdown cfg mt fs inc
        = A ++ ["\n### `" ++ joinSlash rel ++ "`\n",
            (if code_lang_for (rel.getLast?.getD "") == "" then "```"
             else "```" ++ code_lang_for (rel.getLast?.getD "")),
            rstripNewlines (decodeUtf8 (c.take cfg.maxBytes)), "```",
            "_...truncated at " ++ toString cfg.maxBytes ++ " bytes_"] ++ B) ∧
    ((∀ b ∈ c.take cfg.maxBytes, b < 0x80) → (c.take cfg.maxBytes).getLast? ≠ some 10 →
      utf8Bytes (rstripNewlines (decodeUtf8 (c.take cfg.maxBytes))) = c.take cfg.maxBytes) := by
  have hgt : c.length > cfg.maxBytes := by omega
  have hsec := fileSectionOk cfg rel c msg (Or.inl hbin)
  simp only [if_pos hgt] at hsec
  obtain ⟨A, B, hb⟩ := buildContainsSection cfg mt fs inc rel ⟨c, true, msg⟩ hmem hsel
  rw [hsec] at hb
  refine ⟨⟨A, B, hb⟩, ?_⟩
  intro hascii hlast
  have hdata : (decodeUtf8 (c.take cfg.maxBytes)).data
      = (c.take cfg.maxBytes).map (fun b => Char.ofNat b) := asciiDecode _ hascii
  have hnoop : rstripNewlines (decodeUtf8 (c.take cfg.maxBytes))
      = decodeUtf8 (c.take cfg.maxBytes) := by
    apply rstripNoopOfLastNotNewline
    intro ch hch
    rw [hdata, List.getLast?_map] at hch
    cases hl : (c.take cfg.maxBytes).getLast? with
    | none => rw [hl] at hch; simp at hch
    | some b =>
      rw [hl] at hch
      have hchb : Char.ofNat b = ch := by
        have := hch
        simp only [Option.map_some'] at this
        exact Option.some.inj this
      intro hcn
      have hb : b < 0x80 := hascii b (getLastMemOfSome _ b hl)
      have hb10 : b = 10 := by
        have h1 := charOfNatToNat b hb
        rw [hchb, hcn] at h1
        simpa using h1.symm
      exact hlast (by rw [hl, hb10])
  rw [hnoop]
  show bytesOfChars (decodeUtf8 (c.take cfg.maxBytes)).data = c.take cfg.maxBytes
  rw [hdata]
  exact asciiEncode _ hascii

/-- Snapshot for the C4 counterexample: one file `f.txt` of
`4 + 100` bytes whose fourth and third bytes are newlines (`ab\n\n`
followed by one hundred `x`). -/
def egC4Content : List Nat := [97, 98, 10, 10] ++ List.replicate 100 120

/-- See `egC4Content`. -/
def egFsB : FS := .dir true [("f.txt", .file ⟨egC4Content, true, ""⟩)]

theorem egFsBIter :
    iter_files egConfig egFsB [] = [(["f.txt"], ⟨egC4Content, true, ""⟩)] := by
  rw [egFsB, egConfig, iterFilesDirOk]
  show iterGo ⟨[], true, 4, false, "r", ["/", "r"]⟩
    [("f.txt", FS.file ⟨egC4Content, true, ""⟩)] [] = _
  rw [iterGoConsFile, iterGoNil]
  rfl

theorem egFsBBuild :
    build_markdown egConfig egTree egFsB false
      = ["# File Tree for `r`\n", "r", "└── ◉ f.txt", "\n---\n", "## Selected files\n",
         "\n### `f.txt`\n", "```", "ab", "```", "_...truncated at 4 bytes_"] := by
  rw [build_markdown, contentsLines, egFsBIter]
  rw [egFsB, egConfig, egTree, treeLinesDirOk]
  show (["# File Tree for `r`\n"] ++ ["r"]
      ++ treeGo ⟨[], true, 4, false, "r", ["/", "r"]⟩ (.node true []) false
          [("f.txt", FS.file ⟨egC4Content, true, ""⟩)] [] ""
      ++ ["\n---\n", "## Selected files\n"] ++ _) = _
  rw [treeGoCons, treeGoNil]
  rfl

/-- C4 counterexample: a selected, non-binary file of `maxBytes + 100`
bytes whose first `maxBytes` bytes end in two newlines.  The fenced block
holds only two bytes (`ab`), not `maxBytes = 4`, and the decoded first
four bytes `"ab\n\n"` appear nowhere in the document; the truncation
notice does follow. -/
theorem C4_counterexample :
    ((["f.txt"], (⟨egC4Content, true, ""⟩ : FileData)) ∈ iter_files egConfig egFsB []) ∧
    is_selected_effective egTree ["f.txt"] = true ∧
    egC4Content.length = egConfig.maxBytes + 100 ∧
    detect_binary (egC4Content.take (min (egConfig.maxBytes + 1) 8192)) = false ∧
    fileSection egConfig ["f.txt"] ⟨egC4Content, true, ""⟩
      = ["\n### `f.txt`\n", "```", "ab", "```", "_...truncated at 4 bytes_"] ∧
    (utf8Bytes (rstripNewlines (decodeUtf8 (egC4Content.take egConfig.maxBytes)))).length = 2 ∧
    ¬ (utf8Bytes (rstripNewlines (decodeUtf8 (egC4Content.take egConfig.maxBytes)))).length
        = egConfig.maxBytes ∧
    strContainsSub (documentText egConfig egTree egFsB false)
      (decodeUtf8 (egC4Content.take egConfig.maxBytes)) = false := by
  refine ⟨by rw [egFsBIter]; simp, by decide, by decide, by decide, by decide, by decide,
    by decide, ?_⟩
  rw [documentText, egFsBBuild]
  decide

/-- Snapshot for the C4 witness: one file `g.txt` of `4 + 100` bytes, all
the ASCII letter `x`. -/
def egFsC : FS := .dir true [("g.txt", .file ⟨List.replicate 104 120, true, ""⟩)]

theorem egFsCIter :
    iter_files egConfig egFsC [] = [(["g.txt"], ⟨List.replicate 104 120, true, ""⟩)] := by
  rw [egFsC, egConfig, iterFilesDirOk]
  show iterGo ⟨[], true, 4, false, "r", ["/", "r"]⟩
    [("g.txt", FS.file ⟨List.replicate 104 120, true, ""⟩)] [] = _
  rw [iterGoConsFile, iterGoNil]
  rfl

/-- Witness for the amended C4 theorem: both the section shape and the
exactly-`maxBytes`-bytes conclusion at an all-ASCII file. -/
theorem C4_witness :
    (∃ A B, build_markdown egConfig egTree egFsC false
        = A ++ ["\n### `" ++ joinSlash ["g.txt"] ++ "`\n",
            (if code_lang_for (["g.txt"].getLast?.getD "") == "" then "```"
             else "```" ++ code_lang_for (["g.txt"].getLast?.getD "")),
            rstripNewlines (decodeUtf8 ((List.replicate 104 120).take egConfig.maxBytes)),
            "```",
            "_...truncated at " ++ toString egConfig.maxBytes ++ " bytes_"] ++ B) ∧
    utf8Bytes (rstripNewlines (decodeUtf8 ((List.replicate 104 120).take egConfig.maxBytes)))
      = (List.replicate 104 120).take egConfig.maxBytes :=
  ⟨(C4_truncated_content egConfig egTree egFsC false ["g.txt"] (List.replicate 104 120) ""
      (by rw [egFsCIter]; simp) (by decide) (by decide) (by decide)).1,
   (C4_truncated_content egConfig egTree egFsC false ["g.txt"] (List.replicate 104 120) ""
      (by rw [egFsCIter]; simp) (by decide) (by decide) (by decide)).2
      (by decide) (by decide)⟩

/-! ### C5: the tree walk is driven by the filesystem alone -/

/-- First entry with the given name in a directory listing. -/
def findEntry : List (String × FS) → String → Option FS
  | [], _ => none
  | (m, sub) :: tail, n => if m == n then some sub else findEntry tail n

theorem findEntryMem (es : List (String × FS)) (n : String) (sub : FS)
    (h : findEntry es n = some sub) : (n, sub) ∈ es := by
  induction es with
  | nil => simp [findEntry] at h
  | cons e tail ih =>
    obtain ⟨m, s2⟩ := e
    by_cases hm : (m == n) = true
    · simp only [findEntry, hm, if_true, Option.some.injEq] at h
      have hmn : m = n := by simpa using hm
      subst hmn
      simp [h]
    · simp only [Bool.not_eq_true] at hm
      simp only [findEntry, hm, Bool.false_eq_true, if_false] at h
      exact List.mem_cons_of_mem _ (ih h)

/-- A file reachable from the given snapshot directory through listable,
non-excluded entries: every component of the relative path names an entry
that `should_skip` passes, intermediate components are listable
directories, and the final component is a file. -/
def visibleFile (cfg : Config) : FS → List String → List String → Bool
  | _, _, [] => false
  | .file _, _, _ => false
  | .dir false _, _, _ => false
  | .dir true entries, dirPath, n :: rest =>
    !should_skip cfg (dirPath ++ [n]) &&
      (match findEntry entries n with
       | none => false
       | some sub =>
         match rest with
         | [] => !isDirFS sub
         | _ :: _ => visibleFile cfg sub (dirPath ++ [n]) rest)

theorem treeGoEmits (cfg : Config) (mt : MTree) (es : List (String × FS))
    (n : String) (sub : FS) (dirPath : List String) (pre : String)
    (hmem : (n, sub) ∈ es)
    (hsel : is_selected_effective mt (dirPath ++ [n]) = true) :
    ∃ q : String, (q ++ ICON_SEL ++ " " ++ n) ∈ treeGo cfg mt false es dirPath pre := by
  induction es generalizing pre with
  | nil => simp at hmem
  | cons e tail ih =>
    obtain ⟨m, s2⟩ := e
    rcases List.mem_cons.mp hmem with heq | htail
    · obtain ⟨hm, hs⟩ := Prod.mk.injEq .. ▸ heq
      subst hm
      refine ⟨pre ++ (if tail.isEmpty then "└── " else "├── "), ?_⟩
      rw [treeGoCons]
      apply List.mem_append_left
      apply List.mem_append_left
      simp [hsel]
    · obtain ⟨q, hq⟩ := ih pre htail
      refine ⟨q, ?_⟩
      rw [treeGoCons]
      apply List.mem_append_right
      exact hq

theorem treeGoRecurse (cfg : Config) (mt : MTree) (es : List (String × FS))
    (n : String) (sub : FS) (dirPath : List String) (pre : String)
    (hmem : (n, sub) ∈ es) (hdir : isDirFS sub = true) :
    ∃ pre2 : String, ∀ l, l ∈ tree_lines cfg mt false sub (dirPath ++ [n]) pre2 →
      l ∈ treeGo cfg mt false es dirPath pre := by
  induction es generalizing pre with
  | nil => simp at hmem
  | cons e tail ih =>
    obtain ⟨m, s2⟩ := e
    rcases List.mem_cons.mp hmem with heq | htail
    · obtain ⟨hm, hs⟩ := Prod.mk.injEq .. ▸ heq
      subst hm
      subst hs
      refine ⟨pre ++ (if tail.isEmpty then "    " else "│   "), ?_⟩
      intro l hl
      rw [treeGoCons]
      apply List.mem_append_left
      apply List.mem_append_right
      simp only [hdir, if_true]
      exact hl
    · obtain ⟨pre2, himp⟩ := ih pre htail
      refine ⟨pre2, ?_⟩
      intro l hl
      rw [treeGoCons]
      apply List.mem_append_right
      exact himp l hl

/-- C5: the tree-rendering walk of `build_markdown` is driven by the
filesystem alone — it recurses into every listable, non-excluded
subdirectory whether or not the directory's own line was emitted and
whether or not any node for it is materialized in the interactive tree.
Consequently, with `include_unselected = false`, every effectively
selected visible file gets its own line (prefix, branch connector,
selected glyph, name), even when ancestors are effectively deselected:
nothing here constrains the selection state of the directories above the
file. -/
theorem C5_filesystem_driven_walk (cfg : Config) (mt : MTree) :
    ∀ (p : List String) (fs : FS) (dirPath : List String) (pre : String),
      visibleFile cfg fs dirPath p = true →
      is_selected_effective mt (dirPath ++ p) = true →
      ∃ q : String,
        (q ++ ICON_SEL ++ " " ++ (p.getLast?.getD "")) ∈ tree_lines cfg mt false fs dirPath pre := by
  intro p
  induction p with
  | nil => intro fs dirPath pre hvis _; simp [visibleFile] at hvis
  | cons n rest ih =>
    intro fs dirPath pre hvis hsel
    match fs with
    | .file fd => simp [visibleFile] at hvis
    | .dir false entries => simp [visibleFile] at hvis
    | .dir true entries =>
      simp only [visibleFile] at hvis
      cases hfind : findEntry entries n with
      | none =>
        rw [hfind] at hvis
        simp at hvis
      | some sub =>
        rw [hfind] at hvis
        rw [Bool.and_eq_true] at hvis
        obtain ⟨hskip', htgt⟩ := hvis
        have hskip : should_skip cfg (dirPath ++ [n]) = false := by simpa using hskip'
        have hmem : (n, sub) ∈ entries := findEntryMem entries n sub hfind
        have hmemv : (n, sub) ∈ visibleSorted cfg dirPath entries := by
          rw [visibleSorted, memIsortBy]
          exact List.mem_filter.mpr ⟨hmem, by simp [hskip]⟩
        rw [treeLinesDirOk]
        cases rest with
        | nil =>
          obtain ⟨q, hq⟩ := treeGoEmits cfg mt (visibleSorted cfg dirPath entries)
            n sub dirPath pre hmemv (by simpa using hsel)
          exact ⟨q, by simpa using hq⟩
        | cons r rs =>
          have hsub : visibleFile cfg sub (dirPath ++ [n]) (r :: rs) = true := htgt
          have hdir : isDirFS sub = true := by
            match sub with
            | .file _ => simp [visibleFile] at hsub
            | .dir false _ => simp [visibleFile] at hsub
            | .dir true _ => rfl
          obtain ⟨pre2, himp⟩ := treeGoRecurse cfg mt (visibleSorted cfg dirPath entries)
            n sub dirPath pre hmemv hdir
          have hsel2 : is_selected_effective mt ((dirPath ++ [n]) ++ (r :: rs)) = true := by
            rw [List.append_assoc]
            simpa using hsel
          obtain ⟨q, hq⟩ := ih sub (dirPath ++ [n]) pre2 hsub hsel2
          refine ⟨q, ?_⟩
          have hname : ((n :: r :: rs).getLast?.getD "") = ((r :: rs).getLast?.getD "") := by
            rw [List.getLast?_cons_cons]
          rw [hname]
          exact himp _ hq

/-- Witness for C5: the directory `d` is materialized and deselected, its
file `d/x.txt` is materialized and selected; the file still receives a
selected line in the tree section even though its parent's line is not
emitted. -/
theorem C5_witness :
    ∃ q : String,
      (q ++ ICON_SEL ++ " " ++ ((["d", "x.txt"] : List String).getLast?.getD ""))
        ∈ tree_lines egConfig (.node true [("d", .node false [("x.txt", .node true [])])])
            false (.dir true [("d", .dir true [("x.txt", .file ⟨[97], true, ""⟩)])]) [] "" :=
  C5_filesystem_driven_walk egConfig
    (.node true [("d", .node false [("x.txt", .node true [])])])
    ["d", "x.txt"]
    (.dir true [("d", .dir true [("x.txt", .file ⟨[97], true, ""⟩)])])
    [] "" (by decide) (by decide)

/-! ### C10: termination of the `is_selected_effective` upward walk

The Python loop walks absolute paths: `cur = path`, then repeatedly look
`cur` up in `node_index`, return its selection when found, return `True`
when `cur == ROOT`, else `cur = cur.parent`.  `pathlib` makes the
filesystem root its own parent.  The model below runs the loop on
absolute paths as part lists, with the index as an association list. -/

/-- `node_index` lookup. -/
def lookupIdx : List (List String × Bool) → List String → Option Bool
  | [], _ => none
  | (p, b) :: rest, q => if p = q then some b else lookupIdx rest q

/-- `cur.parent`: drop the last component; a path of at most one
component (the filesystem root) is its own parent. -/
def parentAbs (p : List String) : List String :=
  if p.length ≤ 1 then p else p.dropLast

/-- One iteration of the walk: `inl` is a `return`, `inr` the next
current path. -/
def effStep (idx : List (List String × Bool)) (rootAbs cur : List String) :
    Sum Bool (List String) :=
  match lookupIdx idx cur with
  | some b => .inl b
  | none => if cur = rootAbs then .inl true else .inr (parentAbs cur)

/-- Run the walk for at most `n` iterations; `none` means the loop was
still running after `n` iterations. -/
def effRun (idx : List (List String × Bool)) (rootAbs : List String) :
    Nat → List String → Option Bool
  | 0, _ => none
  | n + 1, cur =>
    match effStep idx rootAbs cur with
    | .inl b => some b
    | .inr next => effRun idx rootAbs n next

/-- `p` lies in the subtree of `rootAbs`: `rootAbs` is a leading run of
`p`'s components. -/
def isUnderB : List String → List String → Bool
  | [], _ => true
  | _ :: _, [] => false
  | a :: r1, b :: r2 => (a == b) && isUnderB r1 r2

theorem isUnderBIff (r p : List String) : isUnderB r p = true ↔ ∃ t, p = r ++ t := by
  induction r generalizing p with
  | nil => simp [isUnderB]
  | cons a r1 ih =>
    cases p with
    | nil =>
      simp only [isUnderB, Bool.false_eq_true, false_iff]
      rintro ⟨t, ht⟩
      simp at ht
    | cons b r2 =>
      simp only [isUnderB, Bool.and_eq_true, beq_iff_eq, ih]
      constructor
      · rintro ⟨hab, t, ht⟩
        exact ⟨t, by rw [hab, ht]; rfl⟩
      · rintro ⟨t, ht⟩
        simp only [List.cons_append, List.cons.injEq] at ht
        exact ⟨ht.1.symm, t, ht.2⟩

theorem isUnderBSelf (r : List String) : isUnderB r r = true :=
  (isUnderBIff r r).mpr ⟨[], by simp⟩

theorem isUnderBParent (r p : List String) (h : isUnderB r (parentAbs p) = true) :
    isUnderB r p = true := by
  rw [parentAbs] at h
  by_cases hlen : p.length ≤ 1
  · rw [if_pos hlen] at h
    exact h
  · rw [if_neg hlen] at h
    obtain ⟨t, ht⟩ := (isUnderBIff _ _).mp h
    have hpne : p ≠ [] := by
      intro hc
      rw [hc] at hlen
      simp at hlen
    have hp : p = p.dropLast ++ [p.getLast hpne] := by
      rw [List.dropLast_append_getLast]
    rw [(isUnderBIff _ _)]
    refine ⟨t ++ [p.getLast hpne], ?_⟩
    calc p = p.dropLast ++ [p.getLast hpne] := hp
      _ = (r ++ t) ++ [p.getLast hpne] := by rw [ht]
      _ = r ++ (t ++ [p.getLast hpne]) := by rw [List.append_assoc]

/-- C10: the upward walk of `is_selected_effective` terminates with a
Boolean for every path under the root — the walk needs at most one
iteration per path component, because the root node is in `node_index`
from `compose` on and after every `action_refresh` — and the
under-the-root precondition is necessary: started on a path outside the
root subtree, with the index holding only paths under the root, the walk
ascends parent links forever (the filesystem root being its own parent)
and no iteration count makes it return. -/
theorem C10_effective_selection_termination :
    (∀ (idx : List (List String × Bool)) (rootAbs p : List String) (b0 : Bool),
        lookupIdx idx rootAbs = some b0 → rootAbs ≠ [] →
        isUnderB rootAbs p = true →
        ∃ b, effRun idx rootAbs (p.length + 1) p = some b) ∧
    (∀ (idx : List (List String × Bool)) (rootAbs p : List String),
        (∀ q b, lookupIdx idx q = some b → isUnderB rootAbs q = true) →
        isUnderB rootAbs p = false →
        ∀ n, effRun idx rootAbs n p = none) := by
  constructor
  · intro idx rootAbs p b0 hroot hne
    have main : ∀ (k : Nat) (p : List String), p.length ≤ k →
        isUnderB rootAbs p = true → ∃ b, effRun idx rootAbs (k + 1) p = some b := by
      intro k
      induction k with
      | zero =>
        intro p hlen hund
        have hp : p = [] := List.length_eq_zero.mp (Nat.le_zero.mp hlen)
        subst hp
        obtain ⟨t, ht⟩ := (isUnderBIff _ _).mp hund
        have : rootAbs = [] := by
          cases hr : rootAbs with
          | nil => rfl
          | cons a r1 => rw [hr] at ht; simp at ht
        exact absurd this hne
      | succ k ih =>
        intro p hlen hund
        cases hl : lookupIdx idx p with
        | some b =>
          exact ⟨b, by simp [effRun, effStep, hl]⟩
        | none =>
          by_cases hr : p = rootAbs
          · rw [hr, hroot] at hl
            simp at hl
          · obtain ⟨t, ht⟩ := (isUnderBIff _ _).mp hund
            have htne : t ≠ [] := by
              intro hc
              rw [hc] at ht
              simp at ht
              exact hr ht
            have hlen2 : ¬ p.length ≤ 1 := by
              rw [ht, List.length_append]
              have h1 : 1 ≤ rootAbs.length := by
                cases hrr : rootAbs with
                | nil => exact absurd hrr hne
                | cons a r1 => simp
              have h2 : 1 ≤ t.length := by
                cases htt : t with
                | nil => exact absurd htt htne
                | cons a r1 => simp
              omega
            have hparent : parentAbs p = p.dropLast := by
              rw [parentAbs, if_neg hlen2]
            have hdrop : p.dropLast = rootAbs ++ t.dropLast := by
              rw [ht, List.dropLast_append_of_ne_nil _ htne]
            have hund2 : isUnderB rootAbs (parentAbs p) = true := by
              rw [hparent, hdrop, isUnderBIff]
              exact ⟨t.dropLast, rfl⟩
            have hlen3 : (parentAbs p).length ≤ k := by
              rw [hparent, List.length_dropLast]
              omega
            obtain ⟨b, hb⟩ := ih (parentAbs p) hlen3 hund2
            refine ⟨b, ?_⟩
            show (match effStep idx rootAbs p with
              | .inl b => some b
              | .inr next => effRun idx rootAbs (k + 1) next) = some b
            rw [effStep, hl]
            simp only [if_neg hr]
            exact hb
    exact main (p.length) p (le_refl _)
  · intro idx rootAbs p hidx hout n
    induction n generalizing p with
    | zero => rfl
    | succ n ih =>
      cases hl : lookupIdx idx p with
      | some b =>
        have := hidx p b hl
        rw [this] at hout
        exact absurd hout (by simp)
      | none =>
        have hr : p ≠ rootAbs := by
          intro hc
          rw [hc, isUnderBSelf] at hout
          exact absurd hout (by simp)
        have hout2 : isUnderB rootAbs (parentAbs p) = false := by
          cases hu : isUnderB rootAbs (parentAbs p) with
          | false => rfl
          | true => rw [isUnderBParent rootAbs p hu] at hout; exact absurd hout (by simp)
        show (match effStep idx rootAbs p with
          | .inl b => some b
          | .inr next => effRun idx rootAbs n next) = none
        rw [effStep, hl]
        simp only [if_neg hr]
        exact ih (parentAbs p) hout2

/-- Witness for C10: with the index holding just the root `["/", "r"]`,
the walk from `["/", "r", "x"]` returns, and from the outside path
`["/", "etc"]` five iterations still leave it running. -/
theorem C10_witness :
    (∃ b, effRun [(["/", "r"], true)] ["/", "r"] ((["/", "r", "x"] : List String).length + 1)
        ["/", "r", "x"] = some b) ∧
    effRun [(["/", "r"], true)] ["/", "r"] 5 ["/", "etc"] = none :=
  ⟨C10_effective_selection_termination.1 [(["/", "r"], true)] ["/", "r"] ["/", "r", "x"] true
      (by decide) (by decide) (by decide),
   C10_effective_selection_termination.2 [(["/", "r"], true)] ["/", "r"] ["/", "etc"]
      (by
        intro q b h
        by_cases hq : (["/", "r"] : List String) = q
        · rw [← hq]
          exact isUnderBSelf _
        · simp only [lookupIdx, if_neg hq] at h
          exact absurd h (by simp [lookupIdx]))
      (by decide) 5⟩
